import Mathlib

/-!
Shallow embedding of `src/vm.c`: a mark-and-sweep garbage collector for a
small VM with a bounded root stack.

Modelling decisions:
* Heap pointers become object identifiers (`ObjId := Nat`); `malloc` is a
  fresh-id counter `nextId` on the VM.
* The intrusive allocation list (`firstObject` / `next`) becomes
  `mem : List (ObjId × Object)`, head of the list = `vm->firstObject`,
  list order = allocation-list order.
* The root stack (a `STACK_MAX` array plus `stackSize`) becomes
  `stack : List ObjId` in array-index order: `push` appends at the end,
  `pop` removes the last element; `stackSize` is `stack.length`.
* `fprintf(stderr, ...); exit(1)` in `push`/`pop` becomes an
  `Except FatalError` result recording the diagnostic text and the exit
  status passed to `exit`.
* The recursive `mark` gets an explicit fuel argument; the fuel used by
  `markAll` (`length + 1`) is proved sufficient, and stability in the fuel
  is proved (`mark_fuel_stable`), which is the termination fact for the
  unbounded C recursion.
* `numObjects` and `maxObjects` are C `int`s, modelled as `Int`.
* `gcCount` is a ghost instrumentation field counting collection cycles;
  no source behaviour depends on it.
-/

namespace VMC

set_option maxRecDepth 40000

/-- Object identifier: stands for the address of a heap object. -/
abbrev ObjId := Nat

/-- `ObjectType` from vm.c. -/
inductive ObjectType where
  | OBJ_INT : ObjectType
  | OBJ_PAIR : ObjectType
deriving DecidableEq, Repr

/-- `struct sObject` from vm.c.  The `next` pointer is represented by the
position in the allocation list; the `value`/`head`,`tail` union is
flattened (a freshly allocated object has all payload fields zero,
standing for the uninitialised `malloc` memory, and the caller sets the
fields of its variant). -/
structure Object where
  type : ObjectType
  value : Int
  head : ObjId
  tail : ObjId
  marked : Bool
deriving DecidableEq, Repr

/-- `STACK_MAX` from vm.c. -/
def STACK_MAX : Nat := 256

/-- `INITIAL_GC_THRESHHOLD` from vm.c. -/
def INITIAL_GC_THRESHHOLD : Int := 100

/-- The `VM` struct from vm.c (see the module comment for the
representation of each field). -/
structure VM where
  mem : List (ObjId × Object)
  stack : List ObjId
  numObjects : Int
  maxObjects : Int
  nextId : ObjId
  gcCount : Nat
deriving DecidableEq, Repr

/-- The outcome of `fprintf(stderr, msg); exit(code)`. -/
structure FatalError where
  message : String
  exitCode : Nat
deriving DecidableEq, Repr

/-- Dereference an object id in the allocation list (first matching
entry, as a heap has at most one object per address). -/
def lookupObj : List (ObjId × Object) → ObjId → Option Object
  | [], _ => none
  | (i, o) :: rest, id => if i = id then some o else lookupObj rest id

/-- `object->marked = 1` at address `id` (first matching entry). -/
def markObj : List (ObjId × Object) → ObjId → List (ObjId × Object)
  | [], _ => []
  | (i, o) :: rest, id =>
      if i = id then (i, { o with marked := true }) :: rest
      else (i, o) :: markObj rest id

/-- `object->value = v` at address `id` (first matching entry). -/
def setValue : List (ObjId × Object) → ObjId → Int → List (ObjId × Object)
  | [], _, _ => []
  | (i, o) :: rest, id, v =>
      if i = id then (i, { o with value := v }) :: rest
      else (i, o) :: setValue rest id v

/-- `object->head = h` at address `id` (first matching entry). -/
def setHead : List (ObjId × Object) → ObjId → ObjId → List (ObjId × Object)
  | [], _, _ => []
  | (i, o) :: rest, id, h =>
      if i = id then (i, { o with head := h }) :: rest
      else (i, o) :: setHead rest id h

/-- `object->tail = t` at address `id` (first matching entry). -/
def setTail : List (ObjId × Object) → ObjId → ObjId → List (ObjId × Object)
  | [], _, _ => []
  | (i, o) :: rest, id, t =>
      if i = id then (i, { o with tail := t }) :: rest
      else (i, o) :: setTail rest id t

/-- `newVM()` from vm.c. -/
def newVM : VM :=
  { mem := [], stack := [], numObjects := 0,
    maxObjects := INITIAL_GC_THRESHHOLD, nextId := 0, gcCount := 0 }

/-- `push()` from vm.c: fails (diagnostic + `exit(1)`) when
`stackSize >= STACK_MAX`, otherwise stores at index `stackSize` and
increments the size. -/
def push (vm : VM) (value : ObjId) : Except FatalError VM :=
  if STACK_MAX ≤ vm.stack.length then
    .error { message := "Stack overflow!", exitCode := 1 }
  else
    .ok { vm with stack := vm.stack ++ [value] }

/-- `pop()` from vm.c: fails (diagnostic + `exit(1)`) when the stack is
empty, otherwise removes and returns `stack[stackSize - 1]`. -/
def pop (vm : VM) : Except FatalError (ObjId × VM) :=
  match vm.stack.getLast? with
  | none => .error { message := "Stack underflow!", exitCode := 1 }
  | some x => .ok (x, { vm with stack := vm.stack.dropLast })

/-- `mark()` from vm.c, with explicit fuel standing for the call stack of
the C recursion: return if already marked, otherwise set the mark bit and
recursively mark `head` then `tail` of a pair.  A dangling id (absent from
the heap) is undefined behaviour in C; the model leaves the heap
unchanged. -/
def mark : Nat → List (ObjId × Object) → ObjId → List (ObjId × Object)
  | 0, mem, _ => mem
  | fuel + 1, mem, id =>
      match lookupObj mem id with
      | none => mem
      | some o =>
          if o.marked then mem
          else
            let mem1 := markObj mem id
            match o.type with
            | .OBJ_PAIR => mark fuel (mark fuel mem1 o.head) o.tail
            | .OBJ_INT => mem1

/-- `markAll()` from vm.c: mark from every root-stack slot, in stack
order.  The fuel `length + 1` is sufficient (see `mark_fuel_stable`). -/
def markAll (vm : VM) : VM :=
  { vm with mem := vm.stack.foldl (fun m r => mark (m.length + 1) m r) vm.mem }

/-- The single pass of `sweep()` over the allocation list: returns the
surviving list and the number of objects freed.  An unmarked object is
unlinked and freed; a marked object is unmarked and retained. -/
def sweepList : List (ObjId × Object) → List (ObjId × Object) × Nat
  | [] => ([], 0)
  | (i, o) :: rest =>
      let (l, freed) := sweepList rest
      if o.marked then ((i, { o with marked := false }) :: l, freed)
      else (l, freed + 1)

/-- `sweep()` from vm.c: run the pass and decrement `numObjects` once per
freed object. -/
def sweep (vm : VM) : VM :=
  let (l, freed) := sweepList vm.mem
  { vm with mem := l, numObjects := vm.numObjects - (freed : Int) }

/-- `gc()` from vm.c: mark all, sweep, then set the threshold to twice the
post-sweep live count.  `gcCount` is ghost instrumentation. -/
def gc (vm : VM) : VM :=
  let vm1 := markAll vm
  let vm2 := sweep vm1
  { vm2 with maxObjects := vm2.numObjects * 2, gcCount := vm.gcCount + 1 }

/-- `newObject()` from vm.c: run `gc` when `numObjects == maxObjects`,
then allocate an object of the given type at the head of the allocation
list and increment the live count.  Returns the new object's id with the
new state. -/
def newObject (vm : VM) (type : ObjectType) : ObjId × VM :=
  let vm1 := if vm.numObjects = vm.maxObjects then gc vm else vm
  let id := vm1.nextId
  let obj : Object :=
    { type := type, value := 0, head := 0, tail := 0, marked := false }
  (id, { vm1 with mem := (id, obj) :: vm1.mem, nextId := id + 1,
                  numObjects := vm1.numObjects + 1 })

/-- `pushInt()` from vm.c: allocate an `OBJ_INT`, set its value, push it. -/
def pushInt (vm : VM) (intValue : Int) : Except FatalError VM :=
  let (id, vm1) := newObject vm .OBJ_INT
  let vm2 := { vm1 with mem := setValue vm1.mem id intValue }
  push vm2 id

/-- `pushPair()` from vm.c: allocate an `OBJ_PAIR`, pop the stack into
`tail`, pop again into `head`, push the pair, return it. -/
def pushPair (vm : VM) : Except FatalError (ObjId × VM) := do
  let (id, vm1) := newObject vm .OBJ_PAIR
  let (t, vm2) ← pop vm1
  let vm2 := { vm2 with mem := setTail vm2.mem id t }
  let (h, vm3) ← pop vm2
  let vm3 := { vm3 with mem := setHead vm3.mem id h }
  let vm4 ← push vm3 id
  pure (id, vm4)

/-- The first loop of `main()` from vm.c (and the 21-iteration third
loop): `pushInt(vm, i)` for `i = from, from+1, ...`, `n` times. -/
def pushIntLoop : VM → Nat → Nat → Except FatalError VM
  | vm, _, 0 => .ok vm
  | vm, i, n + 1 => do
      let vm1 ← pushInt vm (i : Int)
      pushIntLoop vm1 (i + 1) n

/-- The second loop of `main()` from vm.c: `pop(vm)`, `n` times. -/
def popLoop : VM → Nat → Except FatalError VM
  | vm, 0 => .ok vm
  | vm, n + 1 => do
      let (_, vm1) ← pop vm
      popLoop vm1 n

/-! ### States of the `main()` demo -/

/-- State after the first loop of `main()`: 80 rooted ints. -/
def afterBatch1 : Except FatalError VM := pushIntLoop newVM 0 80

/-- State after the second loop of `main()`: 10 roots popped. -/
def afterPops : Except FatalError VM := do popLoop (← afterBatch1) 10

/-- State just before the 21st allocation of the third loop of `main()`
(the first 20 iterations of that loop behave identically whether the
loop bound is 20 or 21). -/
def beforeFinalAlloc : Except FatalError VM := do
  pushIntLoop (← afterPops) 0 20

/-- State after the third loop of `main()`: 21 more rooted ints. -/
def afterBatch2 : Except FatalError VM := do pushIntLoop (← afterPops) 0 21

/-! ### Observation helpers and invariants -/

/-- Number of entries of the allocation list whose mark bit is set. -/
def countMarked (l : List (ObjId × Object)) : Nat :=
  (l.filter (fun e => e.2.marked)).length

/-- Number of entries of the allocation list whose mark bit is clear. -/
def unmarkedCount (l : List (ObjId × Object)) : Nat :=
  (l.filter (fun e => !e.2.marked)).length

/-- The mark bit of the object at `id` (`false` for a dangling id). -/
def isMarked (l : List (ObjId × Object)) (id : ObjId) : Bool :=
  match lookupObj l id with
  | some o => o.marked
  | none => false

/-- Forget the mark bit of an object (for stating that marking changes
nothing but mark bits). -/
def eraseMark (o : Object) : Object := { o with marked := false }

/-- The exit status a failed operation passes to `exit`, if it failed. -/
def errCode {α : Type} : Except FatalError α → Option Nat
  | .error e => some e.exitCode
  | .ok _ => none

/-- Every object of the allocation list has its mark bit clear. -/
abbrev allUnmarked (l : List (ObjId × Object)) : Prop :=
  ∀ p ∈ l, p.2.marked = false

/-- Well-formed VM state, as maintained by the C program: distinct
addresses on the allocation list, every root-stack slot and every field
of a pair points at an allocated object, and `numObjects` counts the
allocation list. -/
abbrev WF (vm : VM) : Prop :=
  ((vm.mem.map Prod.fst).Nodup) ∧
  (∀ r ∈ vm.stack, (lookupObj vm.mem r).isSome = true) ∧
  (∀ p ∈ vm.mem, p.2.type = .OBJ_PAIR →
      (lookupObj vm.mem p.2.head).isSome = true ∧
      (lookupObj vm.mem p.2.tail).isSome = true) ∧
  vm.numObjects = (vm.mem.length : Int)

/-- Pairs reference only allocated objects (the heap part of `WF`). -/
def ChildrenClosed (l : List (ObjId × Object)) : Prop :=
  ∀ p ∈ l, p.2.type = .OBJ_PAIR →
    (lookupObj l p.2.head).isSome = true ∧
    (lookupObj l p.2.tail).isSome = true

/-- The marked objects are closed under the child relation: the children
of a marked pair are marked.  This is the invariant `mark` establishes
and the fold over the root stack maintains. -/
def ClosedMarks (l : List (ObjId × Object)) : Prop :=
  ∀ b o, lookupObj l b = some o → o.marked = true → o.type = .OBJ_PAIR →
    isMarked l o.head = true ∧ isMarked l o.tail = true

/-- Two allocation lists with the same objects up to mark bits. -/
def ContentEq (l l' : List (ObjId × Object)) : Prop :=
  ∀ y, (lookupObj l y).map eraseMark = (lookupObj l' y).map eraseMark

/-- `l'` carries at least the marks of `l`. -/
def MarksGrow (l l' : List (ObjId × Object)) : Prop :=
  ∀ y, isMarked l y = true → isMarked l' y = true

/-- Modelled from the spec: an object is reachable when it is referenced
from a root-stack slot or is a child (`head`/`tail`) of a reachable
pair.  This is the specification-side notion that `gc` is compared
against; it is written from the spec's words, not from the code. -/
inductive Reachable (vm : VM) : ObjId → Prop where
  | root (r : ObjId) : r ∈ vm.stack → Reachable vm r
  | child (b c : ObjId) (o : Object) : Reachable vm b →
      lookupObj vm.mem b = some o → o.type = .OBJ_PAIR →
      (c = o.head ∨ c = o.tail) → Reachable vm c

/-- Proof-internal reachability from a single root through unmarked
objects only: exactly the set of objects one call `mark(r)` newly
marks (marked objects act as barriers). -/
inductive ReachU (l : List (ObjId × Object)) (r : ObjId) : ObjId → Prop where
  | refl (o : Object) : lookupObj l r = some o → o.marked = false →
      ReachU l r r
  | step (b c : ObjId) (o oc : Object) : ReachU l r b →
      lookupObj l b = some o → o.type = .OBJ_PAIR →
      (c = o.head ∨ c = o.tail) →
      lookupObj l c = some oc → oc.marked = false → ReachU l r c

/-- Proof-internal reachability from a single root, ignoring marks,
restricted to allocated objects. -/
inductive ReachFrom (l : List (ObjId × Object)) (r : ObjId) : ObjId → Prop where
  | refl (o : Object) : lookupObj l r = some o → ReachFrom l r r
  | step (b c : ObjId) (o oc : Object) : ReachFrom l r b →
      lookupObj l b = some o → o.type = .OBJ_PAIR →
      (c = o.head ∨ c = o.tail) →
      lookupObj l c = some oc → ReachFrom l r c

/-! ### Concrete states used by the witnesses -/

/-- A VM whose root stack is at capacity. -/
def vmFullStack : VM :=
  { mem := [], stack := List.replicate STACK_MAX 0, numObjects := 0,
    maxObjects := 100, nextId := 0, gcCount := 0 }

/-- A VM with two roots `3`, `7` on the stack. -/
def vmTwoRoots : VM :=
  { mem := [], stack := [3, 7], numObjects := 0,
    maxObjects := 100, nextId := 10, gcCount := 0 }

/-- A VM whose live counter sits strictly above the threshold. -/
def vmAboveThreshold : VM :=
  { mem := [], stack := [], numObjects := 5,
    maxObjects := 3, nextId := 0, gcCount := 0 }

/-- A VM with two allocated ints, only the first of which is rooted. -/
def vmHalfRooted : VM :=
  { mem := [(0, { type := .OBJ_INT, value := 1, head := 0, tail := 0,
                  marked := false }),
            (1, { type := .OBJ_INT, value := 2, head := 0, tail := 0,
                  marked := false })],
    stack := [0], numObjects := 2, maxObjects := 100, nextId := 2,
    gcCount := 0 }

/-- A VM holding a self-referencing pair (a reference cycle), rooted. -/
def vmCycle : VM :=
  { mem := [(0, { type := .OBJ_PAIR, value := 0, head := 0, tail := 0,
                  marked := false })],
    stack := [0], numObjects := 1, maxObjects := 100, nextId := 1,
    gcCount := 0 }

/-! ## Structural lemmas -/

theorem markObj_length (l : List (ObjId × Object)) (id : ObjId) :
    (markObj l id).length = l.length := by
  induction l with
  | nil => rfl
  | cons p rest ih =>
      obtain ⟨i, o⟩ := p
      by_cases h : i = id <;> simp [markObj, h, ih]

theorem mark_length (fuel : Nat) (l : List (ObjId × Object)) (r : ObjId) :
    (mark fuel l r).length = l.length := by
  induction fuel generalizing l r with
  | zero => rfl
  | succ fuel ih =>
      unfold mark
      cases h : lookupObj l r with
      | none => rfl
      | some o =>
          by_cases hm : o.marked
          · simp [hm]
          · cases ht : o.type <;>
              simp [hm, ht, ih, markObj_length]

theorem foldMark_length (rs : List ObjId) (l : List (ObjId × Object)) :
    (rs.foldl (fun m r => mark (m.length + 1) m r) l).length = l.length := by
  induction rs generalizing l with
  | nil => rfl
  | cons r rs ih => simp [List.foldl_cons, ih, mark_length]

theorem markAll_mem (vm : VM) :
    (markAll vm).mem =
      vm.stack.foldl (fun m r => mark (m.length + 1) m r) vm.mem := rfl

theorem markAll_mem_length (vm : VM) :
    (markAll vm).mem.length = vm.mem.length := foldMark_length _ _

theorem sweepList_len (l : List (ObjId × Object)) :
    (sweepList l).1.length + (sweepList l).2 = l.length := by
  induction l with
  | nil => rfl
  | cons p rest ih =>
      obtain ⟨i, o⟩ := p
      by_cases h : o.marked <;> simp [sweepList, h] <;> omega

theorem sweep_eq (vm : VM) :
    sweep vm = { vm with mem := (sweepList vm.mem).1,
                         numObjects :=
                           vm.numObjects - ((sweepList vm.mem).2 : Int) } := rfl

theorem gc_eq (vm : VM) :
    gc vm =
      { vm with
        mem := (sweepList (markAll vm).mem).1,
        numObjects := vm.numObjects - ((sweepList (markAll vm).mem).2 : Int),
        maxObjects :=
          (vm.numObjects - ((sweepList (markAll vm).mem).2 : Int)) * 2,
        gcCount := vm.gcCount + 1 } := rfl

/-! ## Claim theorems (first group) -/

/-- C3: after every collection cycle the threshold `maxObjects` equals
exactly twice the live-object count measured after the sweep phase; in
particular an empty post-sweep live set gives threshold zero. -/
theorem gc_threshold_doubles (vm : VM) :
    (gc vm).maxObjects = 2 * (gc vm).numObjects ∧
    (vm.numObjects = (vm.mem.length : Int) → (gc vm).mem = [] →
      (gc vm).maxObjects = 0) := by
  constructor
  · simp [gc_eq]; ring
  · intro h hmem
    have hlen := sweepList_len (markAll vm).mem
    have hml := markAll_mem_length vm
    simp [gc_eq] at hmem ⊢
    rw [hmem] at hlen
    simp at hlen
    omega

/-- Witness for C3 at a concrete input: collecting the fresh VM leaves an
empty live set, hence threshold zero. -/
theorem gc_threshold_doubles_witness : (gc newVM).maxObjects = 0 :=
  (gc_threshold_doubles newVM).2 (by decide) (by rfl)

/-- C4: an allocation request runs a collection cycle (observed through
the ghost `gcCount`) precisely when the live counter equals the
threshold; a counter strictly above the threshold never triggers a
collection through `newObject`. -/
theorem newObject_collects_iff (vm : VM) (t : ObjectType) :
    ((newObject vm t).2.gcCount = vm.gcCount + 1 ↔
      vm.numObjects = vm.maxObjects) ∧
    (vm.maxObjects < vm.numObjects →
      (newObject vm t).2.gcCount = vm.gcCount) := by
  by_cases h : vm.numObjects = vm.maxObjects
  · refine ⟨by simp [newObject, h, gc_eq], fun hlt => absurd h (by omega)⟩
  · refine ⟨by simp [newObject, h], fun _ => by simp [newObject, h]⟩

/-- Witness for C4 at a concrete input: a VM strictly above its threshold
allocates without collecting. -/
theorem newObject_collects_iff_witness :
    (newObject vmAboveThreshold .OBJ_INT).2.gcCount = 0 :=
  (newObject_collects_iff vmAboveThreshold .OBJ_INT).2 (by decide)

/-- C6: a push onto a root stack at capacity fails with the overflow
condition and a pop from an empty root stack fails with the underflow
condition; in both cases the operation produces no successor state (the
process aborts), so the stack is not mutated. -/
theorem push_pop_bounds (vm : VM) (x : ObjId) :
    (vm.stack.length = STACK_MAX →
      push vm x = .error { message := "Stack overflow!", exitCode := 1 }) ∧
    (vm.stack = [] →
      pop vm = .error { message := "Stack underflow!", exitCode := 1 }) := by
  constructor
  · intro h
    simp [push, h]
  · intro h
    simp [pop, h]

/-- Witness for C6 at concrete inputs: a full stack rejects a push, the
fresh VM rejects a pop. -/
theorem push_pop_bounds_witness :
    push vmFullStack 0 =
      .error { message := "Stack overflow!", exitCode := 1 } ∧
    pop newVM = .error { message := "Stack underflow!", exitCode := 1 } :=
  ⟨(push_pop_bounds vmFullStack 0).1 (by decide),
   (push_pop_bounds newVM 0).2 rfl⟩

/-- C7: popping a non-empty root stack removes and returns the
most-recently-pushed reference and leaves the allocation list, the live
counter, and every allocated object unchanged — it reclaims nothing. -/
theorem pop_removes_top (vm : VM) (x : ObjId)
    (h : vm.stack.getLast? = some x) :
    pop vm = .ok (x, { vm with stack := vm.stack.dropLast }) ∧
    vm.stack = vm.stack.dropLast ++ [x] ∧
    vm.stack.dropLast.length + 1 = vm.stack.length := by
  have hne : vm.stack ≠ [] := by
    intro he
    rw [he] at h
    simp at h
  have hx : vm.stack.getLast hne = x := by
    have := List.getLast?_eq_getLast vm.stack hne
    rw [h] at this
    exact (Option.some.injEq _ _).mp this.symm
  refine ⟨by simp [pop, h], ?_, ?_⟩
  · conv_lhs => rw [← List.dropLast_append_getLast hne]
    rw [hx]
  · rw [List.length_dropLast]
    have := List.length_pos.mpr hne
    omega

/-- Witness for C7 at a concrete input: popping a stack holding `3, 7`
returns `7` and keeps everything but the stack. -/
theorem pop_removes_top_witness :
    pop vmTwoRoots = .ok (7, { vmTwoRoots with stack := [3] }) :=
  (pop_removes_top vmTwoRoots 7 rfl).1

/-- Counterexample for C8 as frozen: the claim asks for a distinct
non-zero exit status per fatal stack condition, but overflow and
underflow abort with the same status `1`. -/
theorem stack_abort_status_not_distinct :
    errCode (push vmFullStack 0) = errCode (pop newVM) ∧
    errCode (push vmFullStack 0) = some 1 := ⟨rfl, rfl⟩

/-- C8 (amended): both fatal stack conditions abort the process with the
same non-zero exit status `1`, after emitting a diagnostic identifying
which condition occurred (overflow vs underflow). -/
theorem stack_abort_diagnostics (vm : VM) (x : ObjId) :
    (STACK_MAX ≤ vm.stack.length →
      push vm x = .error { message := "Stack overflow!", exitCode := 1 }) ∧
    (vm.stack = [] →
      pop vm = .error { message := "Stack underflow!", exitCode := 1 }) ∧
    (1 : Nat) ≠ 0 ∧
    "Stack overflow!" ≠ "Stack underflow!" := by
  refine ⟨fun h => by simp [push, h], fun h => by simp [pop, h],
    by decide, by decide⟩

/-- Witness for C8 (amended) at concrete inputs. -/
theorem stack_abort_diagnostics_witness :
    push vmFullStack 0 =
      .error { message := "Stack overflow!", exitCode := 1 } ∧
    pop newVM = .error { message := "Stack underflow!", exitCode := 1 } :=
  ⟨(stack_abort_diagnostics vmFullStack 0).1 (by decide),
   (stack_abort_diagnostics newVM 0).2.1 rfl⟩

/-- C9: with at least two roots and the live counter off the threshold,
`pushPair` allocates one pair whose `tail` is the topmost root and whose
`head` is the one beneath, replaces both roots by the pair, returns it,
and leaves the stack one shorter and the live count one higher. -/
theorem pushPair_spec (vm : VM) (s : List ObjId) (a b : ObjId)
    (h1 : vm.stack = s ++ [a, b]) (h2 : vm.stack.length ≤ STACK_MAX)
    (h3 : vm.numObjects ≠ vm.maxObjects) :
    pushPair vm = .ok (vm.nextId,
      { mem := (vm.nextId, { type := .OBJ_PAIR, value := 0, head := a,
                             tail := b, marked := false }) :: vm.mem,
        stack := s ++ [vm.nextId],
        numObjects := vm.numObjects + 1,
        maxObjects := vm.maxObjects,
        nextId := vm.nextId + 1,
        gcCount := vm.gcCount }) ∧
    (s ++ [vm.nextId]).length + 1 = vm.stack.length := by
  have hs : s.length + 2 = vm.stack.length := by
    rw [h1]
    simp
  have hlt : ¬ (STACK_MAX ≤ s.length) := by omega
  have hab : s ++ [a, b] = (s ++ [a]) ++ [b] := by simp
  constructor
  · obtain ⟨mem, stk, num, maxo, nid, gcc⟩ := vm
    simp only at h1 h3 hlt ⊢
    subst h1
    unfold pushPair newObject
    rw [if_neg h3]
    simp [pop, push, bind, Except.bind, pure, Except.pure, setTail, setHead,
      List.getLast?_append, List.dropLast_append, hlt]
  · simp [hs.symm]

/-- Witness for C9 at a concrete input: pairing the two roots `3, 7`. -/
theorem pushPair_spec_witness :
    pushPair vmTwoRoots = .ok (10,
      { mem := [(10, { type := .OBJ_PAIR, value := 0, head := 3,
                       tail := 7, marked := false })],
        stack := [10], numObjects := 1, maxObjects := 100,
        nextId := 11, gcCount := 0 }) :=
  (pushPair_spec vmTwoRoots [] 3 7 rfl (by decide) (by decide)).1

theorem sweepList_unmarked (l : List (ObjId × Object)) :
    allUnmarked (sweepList l).1 := by
  induction l with
  | nil =>
      intro p hp
      simp [sweepList] at hp
  | cons q rest ih =>
      obtain ⟨i, o⟩ := q
      intro p hp
      by_cases h : o.marked
      · simp [sweepList, h] at hp
        rcases hp with hp | hp
        · simp [hp]
        · exact ih p hp
      · simp [sweepList, h] at hp
        exact ih p hp

theorem allUnmarked_setValue (l : List (ObjId × Object)) (id : ObjId)
    (v : Int) (h : allUnmarked l) : allUnmarked (setValue l id v) := by
  induction l with
  | nil => exact h
  | cons q rest ih =>
      obtain ⟨i, o⟩ := q
      intro p hp
      have hrest : allUnmarked rest := fun q hq => h q (List.mem_cons_of_mem _ hq)
      by_cases hi : i = id
      · simp [setValue, hi] at hp
        rcases hp with hp | hp
        · have := h (i, o) (List.mem_cons_self _ _)
          simp [hp]
          simpa using this
        · exact hrest p hp
      · simp [setValue, hi] at hp
        rcases hp with hp | hp
        · have := h (i, o) (List.mem_cons_self _ _)
          simp [hp]
          simpa using this
        · exact ih hrest p hp

theorem allUnmarked_setHead (l : List (ObjId × Object)) (id hd : ObjId)
    (h : allUnmarked l) : allUnmarked (setHead l id hd) := by
  induction l with
  | nil => exact h
  | cons q rest ih =>
      obtain ⟨i, o⟩ := q
      intro p hp
      have hrest : allUnmarked rest := fun q hq => h q (List.mem_cons_of_mem _ hq)
      by_cases hi : i = id
      · simp [setHead, hi] at hp
        rcases hp with hp | hp
        · have := h (i, o) (List.mem_cons_self _ _)
          simp [hp]
          simpa using this
        · exact hrest p hp
      · simp [setHead, hi] at hp
        rcases hp with hp | hp
        · have := h (i, o) (List.mem_cons_self _ _)
          simp [hp]
          simpa using this
        · exact ih hrest p hp

theorem allUnmarked_setTail (l : List (ObjId × Object)) (id tl : ObjId)
    (h : allUnmarked l) : allUnmarked (setTail l id tl) := by
  induction l with
  | nil => exact h
  | cons q rest ih =>
      obtain ⟨i, o⟩ := q
      intro p hp
      have hrest : allUnmarked rest := fun q hq => h q (List.mem_cons_of_mem _ hq)
      by_cases hi : i = id
      · simp [setTail, hi] at hp
        rcases hp with hp | hp
        · have := h (i, o) (List.mem_cons_self _ _)
          simp [hp]
          simpa using this
        · exact hrest p hp
      · simp [setTail, hi] at hp
        rcases hp with hp | hp
        · have := h (i, o) (List.mem_cons_self _ _)
          simp [hp]
          simpa using this
        · exact ih hrest p hp

theorem gc_mem_unmarked (vm : VM) : allUnmarked (gc vm).mem :=
  sweepList_unmarked (markAll vm).mem

theorem newObject_mem_eq (vm : VM) (t : ObjectType) :
    (newObject vm t).2.mem =
      ((if vm.numObjects = vm.maxObjects then gc vm else vm).nextId,
        { type := t, value := 0, head := 0, tail := 0, marked := false }) ::
      (if vm.numObjects = vm.maxObjects then gc vm else vm).mem := rfl

theorem newObject_unmarked (vm : VM) (t : ObjectType)
    (h : allUnmarked vm.mem) : allUnmarked (newObject vm t).2.mem := by
  rw [newObject_mem_eq]
  intro p hp
  rcases List.mem_cons.mp hp with hp | hp
  · simp [hp]
  · by_cases hc : vm.numObjects = vm.maxObjects
    · rw [if_pos hc] at hp
      exact gc_mem_unmarked vm p hp
    · rw [if_neg hc] at hp
      exact h p hp

theorem push_ok_mem (vm : VM) (x : ObjId) (vm1 : VM)
    (h : push vm x = .ok vm1) : vm1.mem = vm.mem := by
  unfold push at h
  by_cases hc : STACK_MAX ≤ vm.stack.length
  · rw [if_pos hc] at h
    exact absurd h (by simp)
  · rw [if_neg hc] at h
    cases h
    rfl

theorem pop_ok_mem (vm : VM) (r : ObjId) (vm1 : VM)
    (h : pop vm = .ok (r, vm1)) : vm1.mem = vm.mem := by
  unfold pop at h
  cases hg : vm.stack.getLast? with
  | none => rw [hg] at h; exact absurd h (by simp)
  | some y => rw [hg] at h; cases h; rfl

/-- C10: marks are visible only transiently inside a collection cycle:
if every object is unmarked, then after any public operation every
object is again unmarked (`newVM` starts unmarked, allocation creates
unmarked objects, and `sweep` clears the mark of every survivor). -/
theorem marks_cleared_after_ops (vm : VM) (t : ObjectType) (v : Int)
    (x : ObjId) (h : allUnmarked vm.mem) :
    allUnmarked newVM.mem ∧
    (∀ vm1, push vm x = .ok vm1 → allUnmarked vm1.mem) ∧
    (∀ r vm1, pop vm = .ok (r, vm1) → allUnmarked vm1.mem) ∧
    allUnmarked (newObject vm t).2.mem ∧
    (∀ vm1, pushInt vm v = .ok vm1 → allUnmarked vm1.mem) ∧
    (∀ r vm1, pushPair vm = .ok (r, vm1) → allUnmarked vm1.mem) ∧
    allUnmarked (gc vm).mem := by
  refine ⟨?_, ?_, ?_, ?_, ?_, ?_, ?_⟩
  · intro p hp
    simp [newVM] at hp
  · intro vm1 h1
    rw [push_ok_mem vm x vm1 h1]
    exact h
  · intro r vm1 h1
    rw [pop_ok_mem vm r vm1 h1]
    exact h
  · exact newObject_unmarked vm t h
  · intro vm1 h1
    unfold pushInt at h1
    have h2 := newObject_unmarked vm .OBJ_INT h
    have h3 := allUnmarked_setValue (newObject vm .OBJ_INT).2.mem
      (newObject vm .OBJ_INT).1 v h2
    rw [push_ok_mem _ _ _ h1]
    exact h3
  · intro r vm1 h1
    unfold pushPair at h1
    have h2 := newObject_unmarked vm .OBJ_PAIR h
    rcases hN : newObject vm .OBJ_PAIR with ⟨id0, vm0⟩
    rw [hN] at h1 h2
    simp only [bind, Except.bind, pure, Except.pure] at h1
    cases hp1 : pop vm0 with
    | error e => rw [hp1] at h1; simp at h1
    | ok w =>
        obtain ⟨tv, vmA⟩ := w
        rw [hp1] at h1
        simp only at h1
        have hA : allUnmarked vmA.mem := by
          rw [pop_ok_mem _ _ _ hp1]
          exact h2
        have hB := allUnmarked_setTail vmA.mem id0 tv hA
        cases hp2 : pop { vmA with mem := setTail vmA.mem id0 tv } with
        | error e => rw [hp2] at h1; simp at h1
        | ok w2 =>
            obtain ⟨hv, vmB⟩ := w2
            rw [hp2] at h1
            simp only at h1
            have hC : allUnmarked vmB.mem := by
              rw [pop_ok_mem _ _ _ hp2]
              exact hB
            have hD := allUnmarked_setHead vmB.mem id0 hv hC
            cases hp3 : push { vmB with mem := setHead vmB.mem id0 hv }
                id0 with
            | error e => rw [hp3] at h1; simp at h1
            | ok vmC =>
                rw [hp3] at h1
                simp only at h1
                cases h1
                rw [push_ok_mem _ _ _ hp3]
                exact hD
  · exact gc_mem_unmarked vm

/-- Witness for C10 at a concrete input: collecting a VM with one dead
object leaves every survivor unmarked. -/
theorem marks_cleared_after_ops_witness :
    allUnmarked (gc vmHalfRooted).mem :=
  (marks_cleared_after_ops vmHalfRooted .OBJ_INT 0 0
    (by
      intro p hp
      simp [vmHalfRooted] at hp
      rcases hp with hp | hp <;> simp [hp])).2.2.2.2.2.2

/-- C2: the `main()` demo scenario.  After 80 rooted allocations and 10
pops no collection has run; after 20 more rooted allocations the live
count sits exactly at the threshold (100) with still no collection; the
collection the 21st allocation then triggers marks the 90 rooted
objects, reclaims the 10 unrooted ones (live count 90, new threshold
180); the 21st allocation completes with live count 91, root-stack size
91, and exactly one collection has run in total. -/
theorem demo_scenario :
    afterBatch1.map
      (fun vm => (vm.numObjects, vm.stack.length, vm.gcCount)) =
      .ok (80, 80, 0) ∧
    afterPops.map
      (fun vm => (vm.numObjects, vm.stack.length, vm.gcCount)) =
      .ok (80, 70, 0) ∧
    beforeFinalAlloc.map
      (fun vm => (vm.numObjects, vm.maxObjects, vm.stack.length,
        vm.gcCount)) = .ok (100, 100, 90, 0) ∧
    beforeFinalAlloc.map (fun vm => countMarked (markAll vm).mem) =
      .ok 90 ∧
    beforeFinalAlloc.map
      (fun vm => ((gc vm).numObjects, (gc vm).maxObjects)) =
      .ok (90, 180) ∧
    afterBatch2.map
      (fun vm => (vm.numObjects, vm.maxObjects, vm.stack.length,
        vm.gcCount)) = .ok (91, 180, 91, 1) :=
  ⟨rfl, rfl, rfl, rfl, rfl, rfl⟩

/-! ## Mark-phase theory -/

theorem lookupObj_markObj (l : List (ObjId × Object)) (id x : ObjId) :
    lookupObj (markObj l id) x =
      if x = id then
        (lookupObj l id).map (fun o => { o with marked := true })
      else lookupObj l x := by
  induction l with
  | nil => by_cases h : x = id <;> simp [lookupObj, markObj, h]
  | cons p rest ih =>
      obtain ⟨i, o⟩ := p
      by_cases hi : i = id
      · subst hi
        by_cases hx : i = x
        · subst hx
          simp [markObj, lookupObj]
        · have hx' : ¬ x = i := fun h => hx h.symm
          simp [markObj, lookupObj, hx, hx']
      · by_cases hx : i = x
        · subst hx
          simp [markObj, lookupObj, hi]
        · simp [markObj, lookupObj, hi, hx, ih]

theorem unmarkedCount_markObj (l : List (ObjId × Object)) (id : ObjId)
    (o : Object) (h1 : lookupObj l id = some o) (h2 : o.marked = false) :
    unmarkedCount (markObj l id) + 1 = unmarkedCount l := by
  induction l with
  | nil => simp [lookupObj] at h1
  | cons p rest ih =>
      obtain ⟨i, q⟩ := p
      by_cases hi : i = id
      · subst hi
        rw [lookupObj] at h1
        simp at h1
        subst h1
        simp [markObj, unmarkedCount, h2]
      · rw [lookupObj] at h1
        rw [if_neg hi] at h1
        by_cases hq : q.marked
        · simp [markObj, hi, unmarkedCount, hq] at ih ⊢
          exact ih h1
        · simp [markObj, hi, unmarkedCount, hq] at ih ⊢
          have := ih h1
          omega

theorem unmarkedCount_markObj_le (l : List (ObjId × Object)) (id : ObjId) :
    unmarkedCount (markObj l id) ≤ unmarkedCount l := by
  induction l with
  | nil => simp [markObj]
  | cons p rest ih =>
      obtain ⟨i, q⟩ := p
      by_cases hi : i = id
      · subst hi
        by_cases hq : q.marked
        · simp [markObj, unmarkedCount, hq]
        · simp [markObj, unmarkedCount, hq]
      · by_cases hq : q.marked
        · simp [markObj, hi, unmarkedCount, hq] at ih ⊢
          exact ih
        · simp [markObj, hi, unmarkedCount, hq] at ih ⊢
          omega

theorem unmarkedCount_mark_le (fuel : Nat) (l : List (ObjId × Object))
    (r : ObjId) : unmarkedCount (mark fuel l r) ≤ unmarkedCount l := by
  induction fuel generalizing l r with
  | zero => exact Nat.le_refl _
  | succ fuel ih =>
      unfold mark
      cases h : lookupObj l r with
      | none => exact Nat.le_refl _
      | some o =>
          by_cases hm : o.marked
          · simp [hm]
          · cases ht : o.type
            · simp [hm, ht]
              exact unmarkedCount_markObj_le l r
            · simp [hm, ht]
              calc unmarkedCount (mark fuel (mark fuel (markObj l r) o.head)
                      o.tail)
                  ≤ unmarkedCount (mark fuel (markObj l r) o.head) := ih _ _
                _ ≤ unmarkedCount (markObj l r) := ih _ _
                _ ≤ unmarkedCount l := unmarkedCount_markObj_le l r

theorem unmarkedCount_le_length (l : List (ObjId × Object)) :
    unmarkedCount l ≤ l.length :=
  List.length_filter_le _ l

theorem lookupObj_all_marked (l : List (ObjId × Object)) (id : ObjId)
    (o : Object) (h : unmarkedCount l = 0) (hl : lookupObj l id = some o) :
    o.marked = true := by
  induction l with
  | nil => simp [lookupObj] at hl
  | cons p rest ih =>
      obtain ⟨i, q⟩ := p
      have hq : q.marked = true := by
        by_contra hq
        simp [unmarkedCount, List.filter] at h
        rw [Bool.not_eq_true] at hq
        simp [hq] at h
      by_cases hi : i = id
      · subst hi
        rw [lookupObj] at hl
        simp at hl
        subst hl
        exact hq
      · rw [lookupObj, if_neg hi] at hl
        refine ih ?_ hl
        simp [unmarkedCount, List.filter, hq] at h ⊢
        exact h

theorem lookupObj_markObj_erase (l : List (ObjId × Object)) (id x : ObjId) :
    (lookupObj (markObj l id) x).map eraseMark =
      (lookupObj l x).map eraseMark := by
  rw [lookupObj_markObj]
  by_cases h : x = id
  · subst h
    cases lookupObj l x <;> simp [eraseMark]
  · rw [if_neg h]

theorem lookupObj_mark_erase (fuel : Nat) (l : List (ObjId × Object))
    (r x : ObjId) :
    (lookupObj (mark fuel l r) x).map eraseMark =
      (lookupObj l x).map eraseMark := by
  induction fuel generalizing l r with
  | zero => rfl
  | succ fuel ih =>
      unfold mark
      cases h : lookupObj l r with
      | none => rfl
      | some o =>
          by_cases hm : o.marked
          · simp [hm]
          · cases ht : o.type
            · simp [hm, ht, lookupObj_markObj_erase]
            · simp only [hm, ht, if_neg, Bool.false_eq_true,
                not_false_eq_true, if_false]
              rw [ih, ih, lookupObj_markObj_erase]

theorem isMarked_markObj_mono (l : List (ObjId × Object)) (id x : ObjId)
    (h : isMarked l x = true) : isMarked (markObj l id) x = true := by
  unfold isMarked at h ⊢
  rw [lookupObj_markObj]
  by_cases hx : x = id
  · subst hx
    cases hl : lookupObj l x with
    | none => rw [hl] at h; simp at h
    | some o => simp
  · rw [if_neg hx]
    exact h

theorem isMarked_mark_mono (fuel : Nat) (l : List (ObjId × Object))
    (r x : ObjId) (h : isMarked l x = true) :
    isMarked (mark fuel l r) x = true := by
  induction fuel generalizing l r with
  | zero => exact h
  | succ fuel ih =>
      unfold mark
      cases hl : lookupObj l r with
      | none => exact h
      | some o =>
          by_cases hm : o.marked
          · simp [hm]
            exact h
          · cases ht : o.type
            · simp [hm, ht]
              exact isMarked_markObj_mono l r x h
            · simp [hm, ht]
              exact ih _ _ (ih _ _ (isMarked_markObj_mono l r x h))

theorem isMarked_markObj (l : List (ObjId × Object)) (id x : ObjId) :
    isMarked (markObj l id) x =
      if x = id then (lookupObj l id).isSome else isMarked l x := by
  unfold isMarked
  rw [lookupObj_markObj]
  by_cases h : x = id
  · subst h
    cases lookupObj l x <;> simp
  · rw [if_neg h, if_neg h]

theorem eraseMark_fields {o o' : Object} (h : eraseMark o = eraseMark o') :
    o.type = o'.type ∧ o.value = o'.value ∧ o.head = o'.head ∧
      o.tail = o'.tail := by
  cases o
  cases o'
  simp [eraseMark] at h
  exact ⟨h.1, h.2.1, h.2.2.1, h.2.2.2⟩

theorem ReachU_target (l : List (ObjId × Object)) (r x : ObjId)
    (h : ReachU l r x) :
    ∃ o, lookupObj l x = some o ∧ o.marked = false := by
  cases h with
  | refl o h1 h2 => exact ⟨o, h1, h2⟩
  | step b c o oc hb hlb ht hc hlc hmc => exact ⟨oc, hlc, hmc⟩

theorem ReachU_source (l : List (ObjId × Object)) (r x : ObjId)
    (h : ReachU l r x) :
    ∃ o, lookupObj l r = some o ∧ o.marked = false := by
  induction h with
  | refl o h1 h2 => exact ⟨o, h1, h2⟩
  | step b c o oc hb hlb ht hc hlc hmc ih => exact ih

theorem contentEq_trans {l1 l2 l3 : List (ObjId × Object)}
    (h1 : ContentEq l1 l2) (h2 : ContentEq l2 l3) : ContentEq l1 l3 :=
  fun y => (h1 y).trans (h2 y)

theorem marksGrow_trans {l1 l2 l3 : List (ObjId × Object)}
    (h1 : MarksGrow l1 l2) (h2 : MarksGrow l2 l3) : MarksGrow l1 l3 :=
  fun y hy => h2 y (h1 y hy)

theorem contentEq_markObj (l : List (ObjId × Object)) (id : ObjId) :
    ContentEq l (markObj l id) :=
  fun y => (lookupObj_markObj_erase l id y).symm

theorem contentEq_mark (fuel : Nat) (l : List (ObjId × Object)) (r : ObjId) :
    ContentEq l (mark fuel l r) :=
  fun y => (lookupObj_mark_erase fuel l r y).symm

theorem marksGrow_markObj (l : List (ObjId × Object)) (id : ObjId) :
    MarksGrow l (markObj l id) :=
  fun y => isMarked_markObj_mono l id y

theorem marksGrow_mark (fuel : Nat) (l : List (ObjId × Object)) (r : ObjId) :
    MarksGrow l (mark fuel l r) :=
  fun y => isMarked_mark_mono fuel l r y

theorem ReachU_anti (l l' : List (ObjId × Object)) (hc : ContentEq l l')
    (hg : MarksGrow l l') (r x : ObjId) (h : ReachU l' r x) :
    ReachU l r x := by
  have key : ∀ y o', lookupObj l' y = some o' → o'.marked = false →
      ∃ o, lookupObj l y = some o ∧ o.marked = false ∧ o.type = o'.type ∧
        o.head = o'.head ∧ o.tail = o'.tail := by
    intro y o' hy hm
    have hcy := hc y
    rw [hy] at hcy
    cases hly : lookupObj l y with
    | none =>
        rw [hly] at hcy
        simp at hcy
    | some o =>
        rw [hly] at hcy
        simp at hcy
        have hf := eraseMark_fields hcy
        refine ⟨o, rfl, ?_, hf.1, hf.2.2.1, hf.2.2.2⟩
        by_contra hmo
        rw [Bool.not_eq_false] at hmo
        have hml : isMarked l y = true := by
          unfold isMarked
          rw [hly]
          exact hmo
        have h2 := hg y hml
        unfold isMarked at h2
        rw [hy] at h2
        simp at h2
        rw [h2] at hm
        cases hm
  induction h with
  | refl o h1 h2 =>
      obtain ⟨o0, hl0, hm0, _, _, _⟩ := key r o h1 h2
      exact ReachU.refl o0 hl0 hm0
  | step b c o oc hb hlb ht hch hlc hmc ih =>
      obtain ⟨ob', hlb', hmb'⟩ := ReachU_target l' r b hb
      rw [hlb] at hlb'
      cases hlb'
      obtain ⟨ob, hlb0, hmb0, hty, hhd, htl⟩ := key b o hlb hmb'
      obtain ⟨oc0, hlc0, hmc0, _, _, _⟩ := key c oc hlc hmc
      refine ReachU.step b c ob oc0 ih hlb0 ?_ ?_ hlc0 hmc0
      · rw [hty]
        exact ht
      · rcases hch with h | h
        · left
          rw [hhd]
          exact h
        · right
          rw [htl]
          exact h

theorem ReachU_prepend (l : List (ObjId × Object)) (r c x : ObjId)
    (o : Object) (hr : lookupObj l r = some o) (hm : o.marked = false)
    (ht : o.type = .OBJ_PAIR) (hc : c = o.head ∨ c = o.tail)
    (h : ReachU l c x) : ReachU l r x := by
  induction h with
  | refl oc h1 h2 =>
      exact ReachU.step r c o oc (ReachU.refl o hr hm) hr ht hc h1 h2
  | step b d ob od hb hlb htb hcd hld hmd ih =>
      exact ReachU.step b d ob od ih hlb htb hcd hld hmd

theorem ReachU_int (l : List (ObjId × Object)) (r x : ObjId) (o : Object)
    (hr : lookupObj l r = some o) (ht : o.type = .OBJ_INT)
    (h : ReachU l r x) : x = r := by
  induction h with
  | refl _ _ _ => rfl
  | step b c ob oc hb hlb htb hcd hld hmd ih =>
      subst ih
      rw [hr] at hlb
      cases hlb
      rw [ht] at htb
      cases htb

theorem mark_no_op (fuel : Nat) (l : List (ObjId × Object)) (r : ObjId)
    (h : ∀ o, lookupObj l r = some o → o.marked = true) :
    mark (fuel + 1) l r = l := by
  unfold mark
  cases hr : lookupObj l r with
  | none => rfl
  | some o => simp [h o hr]

theorem ReachU_empty (l : List (ObjId × Object)) (r x : ObjId)
    (h : ∀ o, lookupObj l r = some o → o.marked = true)
    (hr : ReachU l r x) : False := by
  obtain ⟨o, ho, hmo⟩ := ReachU_source l r x hr
  rw [h o ho] at hmo
  cases hmo

/-- The marked set produced by one `mark` call with sufficient fuel: the
previously marked objects plus everything reachable from `r` through
unmarked objects. -/
theorem isMarked_mark_iff (n : Nat) :
    ∀ l : List (ObjId × Object), unmarkedCount l ≤ n →
    ∀ r fuel, unmarkedCount l + 1 ≤ fuel →
    ∀ x, (isMarked (mark fuel l r) x = true ↔
      (isMarked l x = true ∨ ReachU l r x)) := by
  induction n with
  | zero =>
      intro l hl r fuel hf x
      obtain ⟨g, rfl⟩ : ∃ g, fuel = g + 1 := ⟨fuel - 1, by omega⟩
      have hl0 : unmarkedCount l = 0 := by omega
      have hall : ∀ o, lookupObj l r = some o → o.marked = true :=
        fun o ho => lookupObj_all_marked l r o hl0 ho
      rw [mark_no_op g l r hall]
      constructor
      · exact Or.inl
      · rintro (h | h)
        · exact h
        · exact absurd h (fun hh => ReachU_empty l r x hall hh)
  | succ n ih =>
      intro l hl r fuel hf x
      obtain ⟨g, rfl⟩ : ∃ g, fuel = g + 1 := ⟨fuel - 1, by omega⟩
      cases hr : lookupObj l r with
      | none =>
          have hall : ∀ o, lookupObj l r = some o → o.marked = true := by
            intro o ho
            rw [hr] at ho
            cases ho
          rw [mark_no_op g l r hall]
          constructor
          · exact Or.inl
          · rintro (h | h)
            · exact h
            · exact absurd h (fun hh => ReachU_empty l r x hall hh)
      | some o =>
          cases hmv : o.marked with
          | true =>
              have hall : ∀ o', lookupObj l r = some o' → o'.marked = true := by
                intro o' ho'
                rw [hr] at ho'
                injection ho' with ho'
                rw [← ho']
                exact hmv
              rw [mark_no_op g l r hall]
              constructor
              · exact Or.inl
              · rintro (h | h)
                · exact h
                · exact absurd h (fun hh => ReachU_empty l r x hall hh)
          | false =>
              have hstep : mark (g + 1) l r =
                  match o.type with
                  | .OBJ_PAIR =>
                      mark g (mark g (markObj l r) o.head) o.tail
                  | .OBJ_INT => markObj l r := by
                conv_lhs => rw [mark]
                rw [hr]
                simp [hmv]
              have hcnt : unmarkedCount (markObj l r) + 1 = unmarkedCount l :=
                unmarkedCount_markObj l r o hr hmv
              have hl1 : unmarkedCount (markObj l r) ≤ n := by omega
              have hg1 : unmarkedCount (markObj l r) + 1 ≤ g := by omega
              cases ht : o.type with
              | OBJ_INT =>
                  rw [hstep, ht]
                  rw [isMarked_markObj]
                  by_cases hx : x = r
                  · subst hx
                    rw [if_pos rfl, hr]
                    simp only [Option.isSome_some]
                    constructor
                    · intro _
                      exact Or.inr (ReachU.refl o hr hmv)
                    · intro _
                      trivial
                  · rw [if_neg hx]
                    constructor
                    · exact Or.inl
                    · rintro (h | h)
                      · exact h
                      · exact absurd (ReachU_int l r x o hr ht h) hx
              | OBJ_PAIR =>
                  rw [hstep, ht]
                  have ih1 := ih (markObj l r) hl1 o.head g hg1
                  have hcnt2 :
                      unmarkedCount (mark g (markObj l r) o.head) ≤
                        unmarkedCount (markObj l r) :=
                    unmarkedCount_mark_le g (markObj l r) o.head
                  have ih2 := ih (mark g (markObj l r) o.head)
                    (le_trans hcnt2 hl1) o.tail g (by omega)
                  rw [ih2 x, ih1 x]
                  have hmr1 : isMarked (markObj l r) r = true := by
                    rw [isMarked_markObj, if_pos rfl, hr]
                    rfl
                  constructor
                  · rintro ((h1 | h1) | h1)
                    · rw [isMarked_markObj] at h1
                      by_cases hx : x = r
                      · subst hx
                        exact Or.inr (ReachU.refl o hr hmv)
                      · rw [if_neg hx] at h1
                        exact Or.inl h1
                    · refine Or.inr ?_
                      have h2 := ReachU_anti l (markObj l r)
                        (contentEq_markObj l r) (marksGrow_markObj l r)
                        o.head x h1
                      exact ReachU_prepend l r o.head x o hr hmv ht
                        (Or.inl rfl) h2
                    · refine Or.inr ?_
                      have hce : ContentEq l (mark g (markObj l r) o.head) :=
                        contentEq_trans (contentEq_markObj l r)
                          (contentEq_mark g (markObj l r) o.head)
                      have hmg : MarksGrow l (mark g (markObj l r) o.head) :=
                        marksGrow_trans (marksGrow_markObj l r)
                          (marksGrow_mark g (markObj l r) o.head)
                      have h2 := ReachU_anti l (mark g (markObj l r) o.head)
                        hce hmg o.tail x h1
                      exact ReachU_prepend l r o.tail x o hr hmv ht
                        (Or.inr rfl) h2
                  · rintro (h1 | h1)
                    · refine Or.inl (Or.inl ?_)
                      rw [isMarked_markObj]
                      by_cases hx : x = r
                      · rw [if_pos hx, hr]
                        rfl
                      · rw [if_neg hx]
                        exact h1
                    · induction h1 with
                      | refl o' ho' hm' =>
                          exact Or.inl (Or.inl hmr1)
                      | step b c ob oc hb hlb htb hch hlc hmc ihq =>
                          by_cases hcr : c = r
                          · subst hcr
                            exact Or.inl (Or.inl hmr1)
                          · have hlc1 : lookupObj (markObj l r) c =
                                lookupObj l c := by
                              rw [lookupObj_markObj, if_neg hcr]
                            rcases ihq with (hq | hq) | hq
                            · -- b is marked in markObj l r, so b = r
                              obtain ⟨obu, hobu, hmbu⟩ :=
                                ReachU_target l r b hb
                              rw [hlb] at hobu
                              injection hobu with hobu
                              subst hobu
                              have hbr : r = b := by
                                by_contra hbr0
                                have hbr1 : ¬ b = r := fun hh => hbr0 hh.symm
                                rw [isMarked_markObj, if_neg hbr1] at hq
                                unfold isMarked at hq
                                rw [hlb] at hq
                                simp [hmbu] at hq
                              subst hbr
                              rw [hr] at hlb
                              injection hlb with hlb
                              subst hlb
                              rcases hch with hch | hch
                              · subst hch
                                refine Or.inl (Or.inr ?_)
                                refine ReachU.refl oc ?_ hmc
                                rw [hlc1]
                                exact hlc
                              · by_cases hmc2 :
                                    isMarked (mark g (markObj l r) o.head) c =
                                      true
                                · rcases (ih1 c).mp hmc2 with hh | hh
                                  · exact Or.inl (Or.inl hh)
                                  · exact Or.inl (Or.inr hh)
                                · subst hch
                                  refine Or.inr ?_
                                  have hcc :
                                      (lookupObj (mark g (markObj l r) o.head)
                                        o.tail).map eraseMark =
                                      (lookupObj l o.tail).map eraseMark := by
                                    rw [lookupObj_mark_erase,
                                      lookupObj_markObj_erase]
                                  rw [hlc] at hcc
                                  cases hoc2 : lookupObj
                                      (mark g (markObj l r) o.head) o.tail with
                                  | none =>
                                      rw [hoc2] at hcc
                                      simp at hcc
                                  | some oc2 =>
                                      rw [hoc2] at hcc
                                      simp at hcc
                                      have hmoc2 : oc2.marked = false := by
                                        unfold isMarked at hmc2
                                        rw [hoc2] at hmc2
                                        simpa using hmc2
                                      exact ReachU.refl oc2 hoc2 hmoc2
                            · -- b reached from o.head inside markObj l r
                              obtain ⟨ob1, hob1, hmb1⟩ :=
                                ReachU_target (markObj l r) o.head b hq
                              have hbr : b ≠ r := by
                                intro he
                                rw [he] at hob1
                                unfold isMarked at hmr1
                                rw [hob1] at hmr1
                                simp [hmb1] at hmr1
                              have hlb1 : lookupObj (markObj l r) b =
                                  lookupObj l b := by
                                rw [lookupObj_markObj, if_neg hbr]
                              rw [hlb1, hlb] at hob1
                              injection hob1 with hob1
                              subst hob1
                              refine Or.inl (Or.inr ?_)
                              refine ReachU.step b c ob oc hq ?_ htb hch
                                ?_ hmc
                              · rw [hlb1]
                                exact hlb
                              · rw [hlc1]
                                exact hlc
                            · -- b reached from o.tail inside the second pass
                              obtain ⟨ob2, hob2, hmb2⟩ :=
                                ReachU_target (mark g (markObj l r) o.head)
                                  o.tail b hq
                              have hbr : b ≠ r := by
                                intro he
                                rw [he] at hob2
                                have h2r := marksGrow_mark g (markObj l r)
                                  o.head r hmr1
                                unfold isMarked at h2r
                                rw [hob2] at h2r
                                simp [hmb2] at h2r
                              have hce2 :
                                  (lookupObj (mark g (markObj l r) o.head)
                                    b).map eraseMark =
                                  (lookupObj l b).map eraseMark := by
                                rw [lookupObj_mark_erase,
                                  lookupObj_markObj_erase]
                              rw [hob2, hlb] at hce2
                              simp at hce2
                              have hf := eraseMark_fields hce2
                              by_cases hmc2 :
                                  isMarked (mark g (markObj l r) o.head) c =
                                    true
                              · rcases (ih1 c).mp hmc2 with hh | hh
                                · exact Or.inl (Or.inl hh)
                                · exact Or.inl (Or.inr hh)
                              · refine Or.inr ?_
                                have hcc :
                                    (lookupObj (mark g (markObj l r) o.head)
                                      c).map eraseMark =
                                    (lookupObj l c).map eraseMark := by
                                  rw [lookupObj_mark_erase,
                                    lookupObj_markObj_erase]
                                rw [hlc] at hcc
                                cases hoc2 : lookupObj
                                    (mark g (markObj l r) o.head) c with
                                | none =>
                                    rw [hoc2] at hcc
                                    simp at hcc
                                | some oc2 =>
                                    rw [hoc2] at hcc
                                    simp at hcc
                                    have hmoc2 : oc2.marked = false := by
                                      unfold isMarked at hmc2
                                      rw [hoc2] at hmc2
                                      simpa using hmc2
                                    refine ReachU.step b c ob2 oc2 hq hob2
                                      ?_ ?_ hoc2 hmoc2
                                    · rw [hf.1]
                                      exact htb
                                    · rcases hch with hch | hch
                                      · left
                                        rw [hf.2.2.1]
                                        exact hch
                                      · right
                                        rw [hf.2.2.2]
                                        exact hch

/-- Fuel-independence of `mark` above the sufficient bound: the C
recursion terminates with a well-defined result. -/
theorem mark_fuel_stable (n : Nat) :
    ∀ l : List (ObjId × Object), unmarkedCount l ≤ n →
    ∀ r f1 f2, unmarkedCount l + 1 ≤ f1 → unmarkedCount l + 1 ≤ f2 →
    mark f1 l r = mark f2 l r := by
  induction n with
  | zero =>
      intro l hl r f1 f2 h1 h2
      obtain ⟨g1, rfl⟩ : ∃ g, f1 = g + 1 := ⟨f1 - 1, by omega⟩
      obtain ⟨g2, rfl⟩ : ∃ g, f2 = g + 1 := ⟨f2 - 1, by omega⟩
      have hl0 : unmarkedCount l = 0 := by omega
      have hall : ∀ o, lookupObj l r = some o → o.marked = true :=
        fun o ho => lookupObj_all_marked l r o hl0 ho
      rw [mark_no_op g1 l r hall, mark_no_op g2 l r hall]
  | succ n ih =>
      intro l hl r f1 f2 h1 h2
      obtain ⟨g1, rfl⟩ : ∃ g, f1 = g + 1 := ⟨f1 - 1, by omega⟩
      obtain ⟨g2, rfl⟩ : ∃ g, f2 = g + 1 := ⟨f2 - 1, by omega⟩
      cases hr : lookupObj l r with
      | none =>
          have hall : ∀ o, lookupObj l r = some o → o.marked = true := by
            intro o ho
            rw [hr] at ho
            cases ho
          rw [mark_no_op g1 l r hall, mark_no_op g2 l r hall]
      | some o =>
          cases hmv : o.marked with
          | true =>
              have hall : ∀ o', lookupObj l r = some o' →
                  o'.marked = true := by
                intro o' ho'
                rw [hr] at ho'
                injection ho' with ho'
                rw [← ho']
                exact hmv
              rw [mark_no_op g1 l r hall, mark_no_op g2 l r hall]
          | false =>
              have hstep1 : mark (g1 + 1) l r =
                  match o.type with
                  | .OBJ_PAIR =>
                      mark g1 (mark g1 (markObj l r) o.head) o.tail
                  | .OBJ_INT => markObj l r := by
                conv_lhs => rw [mark]
                rw [hr]
                simp [hmv]
              have hstep2 : mark (g2 + 1) l r =
                  match o.type with
                  | .OBJ_PAIR =>
                      mark g2 (mark g2 (markObj l r) o.head) o.tail
                  | .OBJ_INT => markObj l r := by
                conv_lhs => rw [mark]
                rw [hr]
                simp [hmv]
              rw [hstep1, hstep2]
              have hcnt : unmarkedCount (markObj l r) + 1 = unmarkedCount l :=
                unmarkedCount_markObj l r o hr hmv
              cases ht : o.type with
              | OBJ_INT => rfl
              | OBJ_PAIR =>
                  have hhead : mark g1 (markObj l r) o.head =
                      mark g2 (markObj l r) o.head :=
                    ih (markObj l r) (by omega) o.head g1 g2 (by omega)
                      (by omega)
                  rw [hhead]
                  have hcnt2 :
                      unmarkedCount (mark g2 (markObj l r) o.head) ≤
                        unmarkedCount (markObj l r) :=
                    unmarkedCount_mark_le g2 (markObj l r) o.head
                  exact ih (mark g2 (markObj l r) o.head) (by omega) o.tail
                    g1 g2 (by omega) (by omega)

theorem lookupObj_mem (l : List (ObjId × Object)) (x : ObjId) (o : Object)
    (h : lookupObj l x = some o) : (x, o) ∈ l := by
  induction l with
  | nil => simp [lookupObj] at h
  | cons p rest ih =>
      obtain ⟨i, q⟩ := p
      rw [lookupObj] at h
      by_cases hi : i = x
      · rw [if_pos hi] at h
        injection h with h
        subst h
        subst hi
        exact List.mem_cons_self _ _
      · rw [if_neg hi] at h
        exact List.mem_cons_of_mem _ (ih h)

theorem lookupObj_isSome_iff_mem (l : List (ObjId × Object)) (x : ObjId) :
    (lookupObj l x).isSome = true ↔ x ∈ l.map Prod.fst := by
  induction l with
  | nil => simp [lookupObj]
  | cons p rest ih =>
      obtain ⟨i, q⟩ := p
      by_cases hi : i = x
      · subst hi
        simp [lookupObj]
      · have hi' : ¬ x = i := fun h => hi h.symm
        simp [lookupObj, hi, hi', ih]

theorem contentEq_isSome {l l' : List (ObjId × Object)} (h : ContentEq l l')
    (y : ObjId) : (lookupObj l y).isSome = (lookupObj l' y).isSome := by
  have hy := h y
  cases h1 : lookupObj l y <;> cases h2 : lookupObj l' y <;>
    rw [h1, h2] at hy <;> simp at hy ⊢

theorem contentEq_lookup {l l' : List (ObjId × Object)} (h : ContentEq l l')
    {y : ObjId} {o : Object} (hy : lookupObj l y = some o) :
    ∃ o', lookupObj l' y = some o' ∧ o'.type = o.type ∧
      o'.head = o.head ∧ o'.tail = o.tail := by
  have hc := h y
  rw [hy] at hc
  cases h2 : lookupObj l' y with
  | none =>
      rw [h2] at hc
      simp at hc
  | some o' =>
      rw [h2] at hc
      simp at hc
      have hf := eraseMark_fields hc.symm
      exact ⟨o', rfl, hf.1, hf.2.2.1, hf.2.2.2⟩

theorem ReachFrom_contentEq {l l' : List (ObjId × Object)}
    (h : ContentEq l l') (r x : ObjId) (hr : ReachFrom l r x) :
    ReachFrom l' r x := by
  induction hr with
  | refl o h1 =>
      obtain ⟨o', h2, _, _, _⟩ := contentEq_lookup h h1
      exact ReachFrom.refl o' h2
  | step b c ob oc hb hlb htb hch hlc ih =>
      obtain ⟨ob', hlb', hty, hhd, htl⟩ := contentEq_lookup h hlb
      obtain ⟨oc', hlc', _, _, _⟩ := contentEq_lookup h hlc
      refine ReachFrom.step b c ob' oc' ih hlb' ?_ ?_ hlc'
      · rw [hty]
        exact htb
      · rcases hch with hc | hc
        · left
          rw [hhd]
          exact hc
        · right
          rw [htl]
          exact hc

theorem reachU_reachFrom (l : List (ObjId × Object)) (r x : ObjId)
    (h : ReachU l r x) : ReachFrom l r x := by
  induction h with
  | refl o h1 h2 => exact ReachFrom.refl o h1
  | step b c ob oc hb hlb htb hch hlc hmc ih =>
      exact ReachFrom.step b c ob oc ih hlb htb hch hlc

theorem reachFrom_marked_or_reachU (l : List (ObjId × Object))
    (hcm : ClosedMarks l) (r x : ObjId) (h : ReachFrom l r x) :
    isMarked l x = true ∨ ReachU l r x := by
  induction h with
  | refl o h1 =>
      cases hmo : o.marked with
      | false => exact Or.inr (ReachU.refl o h1 hmo)
      | true =>
          left
          unfold isMarked
          rw [h1]
          exact hmo
  | step b c ob oc hb hlb htb hch hlc ih =>
      rcases ih with hm | hm
      · left
        have hmb : ob.marked = true := by
          unfold isMarked at hm
          rw [hlb] at hm
          simpa using hm
        have hcl := hcm b ob hlb hmb htb
        rcases hch with hc | hc
        · rw [hc]
          exact hcl.1
        · rw [hc]
          exact hcl.2
      · cases hmoc : oc.marked with
        | false => exact Or.inr (ReachU.step b c ob oc hm hlb htb hch hlc hmoc)
        | true =>
            left
            unfold isMarked
            rw [hlc]
            exact hmoc

theorem closedMarks_mark (l : List (ObjId × Object)) (hcc : ChildrenClosed l)
    (hcm : ClosedMarks l) (r : ObjId) (fuel : Nat)
    (hf : unmarkedCount l + 1 ≤ fuel) : ClosedMarks (mark fuel l r) := by
  intro b o' hlb' hm' ht'
  have hce : ContentEq l (mark fuel l r) := contentEq_mark fuel l r
  have hchar := isMarked_mark_iff (unmarkedCount l) l (le_refl _) r fuel hf
  obtain ⟨ob, hlb, hty, hhd, htl⟩ :=
    contentEq_lookup (fun y => (hce y).symm) hlb'
  have hmb' : isMarked (mark fuel l r) b = true := by
    unfold isMarked
    rw [hlb']
    exact hm'
  have hobt : ob.type = .OBJ_PAIR := by
    rw [hty]
    exact ht'
  have hchild : ∀ c, (c = ob.head ∨ c = ob.tail) →
      isMarked (mark fuel l r) c = true := by
    intro c hch
    have hcs : (lookupObj l c).isSome = true := by
      have := hcc (b, ob) (lookupObj_mem l b ob hlb) hobt
      rcases hch with hc | hc
      · rw [hc]
        exact this.1
      · rw [hc]
        exact this.2
    obtain ⟨oc, hoc⟩ := Option.isSome_iff_exists.mp hcs
    rcases (hchar b).mp hmb' with hmb | hmb
    · -- b already marked in l: its children are marked in l
      have hmbo : ob.marked = true := by
        unfold isMarked at hmb
        rw [hlb] at hmb
        simpa using hmb
      have hcl := hcm b ob hlb hmbo hobt
      refine isMarked_mark_mono fuel l r c ?_
      rcases hch with hc | hc
      · rw [hc]
        exact hcl.1
      · rw [hc]
        exact hcl.2
    · -- b newly marked: either c was marked or c extends the traversal
      cases hmoc : oc.marked with
      | true =>
          refine isMarked_mark_mono fuel l r c ?_
          unfold isMarked
          rw [hoc]
          exact hmoc
      | false =>
          refine (hchar c).mpr (Or.inr ?_)
          exact ReachU.step b c ob oc hmb hlb hobt hch hoc hmoc
  constructor
  · refine ?_
    have := hchild o'.head (Or.inl ?_)
    · exact this
    · rw [hhd]
  · refine ?_
    have := hchild o'.tail (Or.inr ?_)
    · exact this
    · rw [htl]

theorem childrenClosed_contentEq {l l' : List (ObjId × Object)}
    (hmap : l'.map (fun e => (e.1, eraseMark e.2)) =
      l.map (fun e => (e.1, eraseMark e.2)))
    (hce : ContentEq l l') (hcc : ChildrenClosed l) : ChildrenClosed l' := by
  intro p' hp' ht'
  have hmem : (p'.1, eraseMark p'.2) ∈
      l.map (fun e => (e.1, eraseMark e.2)) := by
    rw [← hmap]
    exact List.mem_map_of_mem _ hp'
  obtain ⟨p, hpmem, hpe⟩ := List.mem_map.mp hmem
  injection hpe with h1 h2
  have hf := eraseMark_fields h2
  have hpt : p.2.type = .OBJ_PAIR := by
    rw [hf.1]
    exact ht'
  have := hcc p hpmem hpt
  constructor
  · rw [← contentEq_isSome hce]
    rw [← hf.2.2.1]
    exact this.1
  · rw [← contentEq_isSome hce]
    rw [← hf.2.2.2]
    exact this.2

theorem markObj_erase_list (l : List (ObjId × Object)) (id : ObjId) :
    (markObj l id).map (fun e => (e.1, eraseMark e.2)) =
      l.map (fun e => (e.1, eraseMark e.2)) := by
  induction l with
  | nil => rfl
  | cons p rest ih =>
      obtain ⟨i, o⟩ := p
      by_cases hi : i = id
      · simp [markObj, hi, eraseMark]
      · simp [markObj, hi, ih]

theorem mark_erase_list (fuel : Nat) (l : List (ObjId × Object)) (r : ObjId) :
    (mark fuel l r).map (fun e => (e.1, eraseMark e.2)) =
      l.map (fun e => (e.1, eraseMark e.2)) := by
  induction fuel generalizing l r with
  | zero => rfl
  | succ fuel ih =>
      unfold mark
      cases h : lookupObj l r with
      | none => rfl
      | some o =>
          by_cases hm : o.marked
          · simp [hm]
          · cases ht : o.type
            · simp [hm, ht, markObj_erase_list]
            · simp only [hm, Bool.false_eq_true, not_false_eq_true,
                if_neg, if_false, ht]
              rw [ih, ih, markObj_erase_list]

/-- The marked set after folding `mark` over a list of roots: everything
already marked plus everything reachable from one of the roots. -/
theorem isMarked_foldMark (rs : List ObjId) :
    ∀ l : List (ObjId × Object), ChildrenClosed l → ClosedMarks l →
    ∀ x, (isMarked (rs.foldl (fun m r => mark (m.length + 1) m r) l) x = true
      ↔ (isMarked l x = true ∨ ∃ r ∈ rs, ReachFrom l r x)) := by
  induction rs with
  | nil =>
      intro l _ _ x
      simp
  | cons r rs ih =>
      intro l hcc hcm x
      rw [List.foldl_cons]
      have hfuel : unmarkedCount l + 1 ≤ l.length + 1 := by
        have := unmarkedCount_le_length l
        omega
      have hchar := isMarked_mark_iff (unmarkedCount l) l (le_refl _) r
        (l.length + 1) hfuel
      have hce : ContentEq l (mark (l.length + 1) l r) :=
        contentEq_mark _ l r
      have hcc1 : ChildrenClosed (mark (l.length + 1) l r) :=
        childrenClosed_contentEq (mark_erase_list _ l r) hce hcc
      have hcm1 : ClosedMarks (mark (l.length + 1) l r) :=
        closedMarks_mark l hcc hcm r (l.length + 1) hfuel
      rw [ih (mark (l.length + 1) l r) hcc1 hcm1 x]
      rw [hchar x]
      have hrf : ∀ r' x', ReachFrom (mark (l.length + 1) l r) r' x' ↔
          ReachFrom l r' x' := by
        intro r' x'
        constructor
        · exact ReachFrom_contentEq (fun y => (hce y).symm) r' x'
        · exact ReachFrom_contentEq hce r' x'
      constructor
      · rintro ((h | h) | ⟨r', hr', hfrom⟩)
        · exact Or.inl h
        · exact Or.inr ⟨r, List.mem_cons_self _ _, reachU_reachFrom l r x h⟩
        · exact Or.inr ⟨r', List.mem_cons_of_mem _ hr',
            (hrf r' x).mp hfrom⟩
      · rintro (h | ⟨r', hr', hfrom⟩)
        · exact Or.inl (Or.inl h)
        · rcases List.mem_cons.mp hr' with hr0 | hr0
          · subst hr0
            rcases reachFrom_marked_or_reachU l hcm r' x hfrom with hm | hm
            · exact Or.inl (Or.inl hm)
            · exact Or.inl (Or.inr hm)
          · exact Or.inr ⟨r', hr0, (hrf r' x).mpr hfrom⟩

theorem reachFrom_reachable (vm : VM) (r x : ObjId) (hr : r ∈ vm.stack)
    (h : ReachFrom vm.mem r x) : Reachable vm x := by
  induction h with
  | refl o h1 => exact Reachable.root r hr
  | step b c ob oc hb hlb htb hch hlc ih =>
      exact Reachable.child b c ob ih hlb htb hch

theorem reachable_reachFrom (vm : VM) (hwf : WF vm) (x : ObjId)
    (h : Reachable vm x) : ∃ r ∈ vm.stack, ReachFrom vm.mem r x := by
  induction h with
  | root r hr =>
      obtain ⟨o, ho⟩ := Option.isSome_iff_exists.mp (hwf.2.1 r hr)
      exact ⟨r, hr, ReachFrom.refl o ho⟩
  | child b c ob hb hlb htb hch ih =>
      obtain ⟨r, hr, hfrom⟩ := ih
      have hclosed := hwf.2.2.1 (b, ob) (lookupObj_mem vm.mem b ob hlb) htb
      have hcs : (lookupObj vm.mem c).isSome = true := by
        rcases hch with hc | hc
        · rw [hc]
          exact hclosed.1
        · rw [hc]
          exact hclosed.2
      obtain ⟨oc, hoc⟩ := Option.isSome_iff_exists.mp hcs
      exact ⟨r, hr, ReachFrom.step b c ob oc hfrom hlb htb hch hoc⟩

/-- `markAll` marks exactly the objects reachable from the root stack
(on a well-formed, fully unmarked heap). -/
theorem isMarked_markAll_iff (vm : VM) (hwf : WF vm)
    (hum : allUnmarked vm.mem) (x : ObjId) :
    isMarked (markAll vm).mem x = true ↔ Reachable vm x := by
  have hcm : ClosedMarks vm.mem := by
    intro b o hlb hm _
    have := hum (b, o) (lookupObj_mem vm.mem b o hlb)
    rw [this] at hm
    cases hm
  have hF := isMarked_foldMark vm.stack vm.mem hwf.2.2.1 hcm x
  rw [markAll_mem, hF]
  have hnone : ¬ isMarked vm.mem x = true := by
    intro hm
    unfold isMarked at hm
    cases hl : lookupObj vm.mem x with
    | none =>
        rw [hl] at hm
        cases hm
    | some o =>
        rw [hl] at hm
        have := hum (x, o) (lookupObj_mem vm.mem x o hl)
        simp at hm
        rw [this] at hm
        cases hm
  constructor
  · rintro (h | ⟨r, hr, hfrom⟩)
    · exact absurd h hnone
    · exact reachFrom_reachable vm r x hr hfrom
  · intro h
    exact Or.inr (reachable_reachFrom vm hwf x h)

theorem lookupObj_none_of_not_mem (l : List (ObjId × Object)) (x : ObjId)
    (h : x ∉ l.map Prod.fst) : lookupObj l x = none := by
  cases hl : lookupObj l x with
  | none => rfl
  | some o =>
      exact absurd ((lookupObj_isSome_iff_mem l x).mp (by rw [hl]; rfl)) h

theorem markObj_mapFst (l : List (ObjId × Object)) (id : ObjId) :
    (markObj l id).map Prod.fst = l.map Prod.fst := by
  have := markObj_erase_list l id
  have h1 := congrArg (List.map Prod.fst) this
  rw [List.map_map, List.map_map] at h1
  exact h1

theorem mark_mapFst (fuel : Nat) (l : List (ObjId × Object)) (r : ObjId) :
    (mark fuel l r).map Prod.fst = l.map Prod.fst := by
  have := mark_erase_list fuel l r
  have h1 := congrArg (List.map Prod.fst) this
  rw [List.map_map, List.map_map] at h1
  exact h1

theorem foldMark_mapFst (rs : List ObjId) (l : List (ObjId × Object)) :
    (rs.foldl (fun m r => mark (m.length + 1) m r) l).map Prod.fst =
      l.map Prod.fst := by
  induction rs generalizing l with
  | nil => rfl
  | cons r rs ih =>
      rw [List.foldl_cons, ih, mark_mapFst]

theorem sweepList_fst_sublist (l : List (ObjId × Object)) :
    ((sweepList l).1.map Prod.fst).Sublist (l.map Prod.fst) := by
  induction l with
  | nil => simp [sweepList]
  | cons p rest ih =>
      obtain ⟨i, o⟩ := p
      by_cases h : o.marked
      · simp only [sweepList, h, if_pos, List.map_cons]
        exact List.Sublist.cons₂ i ih
      · simp only [sweepList, h, if_neg, Bool.false_eq_true, if_false,
          List.map_cons]
        exact List.Sublist.cons i ih

theorem lookupObj_sweepList (l : List (ObjId × Object))
    (hnd : (l.map Prod.fst).Nodup) (x : ObjId) :
    lookupObj (sweepList l).1 x =
      if isMarked l x = true then
        (lookupObj l x).map (fun o => { o with marked := false })
      else none := by
  induction l with
  | nil => simp [sweepList, lookupObj, isMarked]
  | cons p rest ih =>
      obtain ⟨i, o⟩ := p
      rw [List.map_cons, List.nodup_cons] at hnd
      by_cases h : o.marked
      · by_cases hi : i = x
        · subst hi
          simp [sweepList, h, lookupObj, isMarked]
        · have hi' : ¬ x = i := fun hh => hi hh.symm
          simp only [sweepList, h, if_pos, lookupObj, hi, if_neg,
            if_false]
          rw [ih hnd.2]
          have hm : isMarked ((i, o) :: rest) x = isMarked rest x := by
            unfold isMarked
            rw [lookupObj, if_neg hi]
          rw [hm]
      · by_cases hi : i = x
        · subst hi
          have hnm : i ∉ (sweepList rest).1.map Prod.fst := by
            intro hmem
            exact hnd.1 ((sweepList_fst_sublist rest).mem hmem)
          have hnone := lookupObj_none_of_not_mem (sweepList rest).1 i hnm
          have hmk : isMarked ((i, o) :: rest) i = false := by
            unfold isMarked
            rw [lookupObj, if_pos rfl]
            simpa using h
          simp only [sweepList, h, Bool.false_eq_true, if_false]
          rw [hnone, hmk]
          simp
        · simp only [sweepList, h, Bool.false_eq_true, if_false]
          rw [ih hnd.2]
          have hm : isMarked ((i, o) :: rest) x = isMarked rest x := by
            unfold isMarked
            rw [lookupObj, if_neg hi]
          have hl : lookupObj ((i, o) :: rest) x = lookupObj rest x := by
            rw [lookupObj, if_neg hi]
          rw [hm, hl]

/-- C1: reachability correctness.  After a collection cycle on a
well-formed, fully unmarked heap, an object is on the allocation list
exactly when it was reachable (transitively through pair children) from
some root-stack slot, and the live-object count equals the number of
reachable objects. -/
theorem gc_reachability (vm : VM) (hwf : WF vm) (hum : allUnmarked vm.mem) :
    (∀ id, ((lookupObj (gc vm).mem id).isSome = true ↔ Reachable vm id)) ∧
    (∃ ids : Finset ObjId, (∀ i, (i ∈ ids ↔ Reachable vm i)) ∧
      (gc vm).numObjects = (ids.card : Int)) := by
  have hnd1 : ((markAll vm).mem.map Prod.fst).Nodup := by
    rw [markAll_mem, foldMark_mapFst]
    exact hwf.1
  have hgcmem : (gc vm).mem = (sweepList (markAll vm).mem).1 := rfl
  have hkey : ∀ id, ((lookupObj (gc vm).mem id).isSome = true ↔
      Reachable vm id) := by
    intro id
    rw [hgcmem, lookupObj_sweepList (markAll vm).mem hnd1 id]
    by_cases hm : isMarked (markAll vm).mem id = true
    · rw [if_pos hm]
      have hre := (isMarked_markAll_iff vm hwf hum id).mp hm
      have hsome : (lookupObj (markAll vm).mem id).isSome = true := by
        unfold isMarked at hm
        cases hli : lookupObj (markAll vm).mem id with
        | none =>
            rw [hli] at hm
            cases hm
        | some o => rfl
      constructor
      · intro _
        exact hre
      · intro _
        obtain ⟨o, ho⟩ := Option.isSome_iff_exists.mp hsome
        rw [ho]
        rfl
    · rw [if_neg hm]
      constructor
      · intro hh
        simp at hh
      · intro hre
        exact absurd ((isMarked_markAll_iff vm hwf hum id).mpr hre) hm
  refine ⟨hkey, ⟨((gc vm).mem.map Prod.fst).toFinset, ?_, ?_⟩⟩
  · intro i
    rw [List.mem_toFinset, ← lookupObj_isSome_iff_mem]
    exact hkey i
  · have hndgc : ((gc vm).mem.map Prod.fst).Nodup := by
      rw [hgcmem]
      exact (sweepList_fst_sublist _).nodup hnd1
    rw [List.toFinset_card_of_nodup hndgc, List.length_map]
    have hlen := sweepList_len (markAll vm).mem
    have hml : (markAll vm).mem.length = vm.mem.length :=
      markAll_mem_length vm
    have hnum : vm.numObjects = (vm.mem.length : Int) := hwf.2.2.2
    have hgcnum : (gc vm).numObjects =
        vm.numObjects - ((sweepList (markAll vm).mem).2 : Int) := rfl
    rw [hgcnum, hgcmem, hnum]
    omega

/-- Witness for C1 at a concrete input: in a heap with two ints of which
only the first is rooted, the rooted one survives collection. -/
theorem gc_reachability_witness :
    (lookupObj (gc vmHalfRooted).mem 0).isSome = true :=
  ((gc_reachability vmHalfRooted (by decide) (by decide)).1 0).mpr
    (Reachable.root 0 (by decide))

/-- C5: marking terminates on every object graph, cycles included
(`mark` is stable in its fuel once the fuel exceeds the number of
unmarked objects, which is what termination of the unbounded C recursion
means), an already-marked object is not re-visited (marking it is the
identity, so its children are not re-traversed), and `markAll` marks
exactly the objects reachable from the root stack. -/
theorem mark_cycle_safe :
    (∀ (l : List (ObjId × Object)) (r : ObjId) (fuel : Nat),
        unmarkedCount l + 1 ≤ fuel →
        mark fuel l r = mark (unmarkedCount l + 1) l r) ∧
    (∀ (l : List (ObjId × Object)) (r : ObjId) (o : Object) (fuel : Nat),
        1 ≤ fuel → lookupObj l r = some o → o.marked = true →
        mark fuel l r = l) ∧
    (∀ vm : VM, WF vm → allUnmarked vm.mem →
        ∀ x, (isMarked (markAll vm).mem x = true ↔ Reachable vm x)) := by
  refine ⟨?_, ?_, ?_⟩
  · intro l r fuel hf
    exact mark_fuel_stable (unmarkedCount l) l (le_refl _) r fuel
      (unmarkedCount l + 1) hf (le_refl _)
  · intro l r o fuel hf hl hm
    obtain ⟨g, rfl⟩ : ∃ g, fuel = g + 1 := ⟨fuel - 1, by omega⟩
    refine mark_no_op g l r ?_
    intro o' ho'
    rw [hl] at ho'
    injection ho' with ho'
    rw [← ho']
    exact hm
  · intro vm h1 h2 x
    exact isMarked_markAll_iff vm h1 h2 x

/-- Witness for C5 at a concrete input: a rooted self-referencing pair (a
reference cycle).  Marking it is fuel-stable, marking it again is a
no-op, and it ends up marked. -/
theorem mark_cycle_safe_witness :
    mark 5 vmCycle.mem 0 =
      mark (unmarkedCount vmCycle.mem + 1) vmCycle.mem 0 ∧
    mark 3 (markAll vmCycle).mem 0 = (markAll vmCycle).mem ∧
    isMarked (markAll vmCycle).mem 0 = true :=
  ⟨mark_cycle_safe.1 vmCycle.mem 0 5 (by decide),
   mark_cycle_safe.2.1 (markAll vmCycle).mem 0
     { type := .OBJ_PAIR, value := 0, head := 0, tail := 0, marked := true }
     3 (by decide) (by decide) rfl,
   (mark_cycle_safe.2.2 vmCycle (by decide) (by decide) 0).mpr
     (Reachable.root 0 (by decide))⟩

end VMC
